import Mathlib

/-!
# Verification of the Sam text-editor core (`src/script.js`)

Shallow embedding of the text-statistics / persistence / editing core of
the single-page text application, together with proofs of its specified
properties.  Strings are modelled as `List Char`; the browser-local
key-value store is modelled as an optional stored value under the single
fixed key `sam-text-content`.
-/

set_option autoImplicit false

namespace SamText

/-! ## Character classes and JavaScript string primitives -/

/-- The JavaScript `\s` character class (also the set stripped by
`String.prototype.trim`): ASCII whitespace plus the Unicode space
separators and BOM. -/
def isWs (c : Char) : Bool :=
  c = ' ' || c = '\t' || c = '\n' || c = '\r' || c = '\x0b' || c = '\x0c' ||
  c = ' ' || c = ' ' ||
  (' ' ≤ c && c ≤ ' ') ||
  c = ' ' || c = ' ' || c = ' ' || c = ' ' ||
  c = '　' || c = '﻿'

/-- JavaScript `String.prototype.trim`: strip leading and trailing `\s`
characters. -/
def jsTrim (s : List Char) : List Char :=
  ((s.dropWhile isWs).reverse.dropWhile isWs).reverse

/-- Accumulator-style tokenizer: the maximal non-whitespace runs of the
input, with `cur` the (reversed) partially read current token. -/
def wordsAux : List Char → List Char → List (List Char)
  | [], cur => if cur = [] then [] else [cur.reverse]
  | c :: rest, cur =>
    if isWs c then
      if cur = [] then wordsAux rest [] else cur.reverse :: wordsAux rest []
    else wordsAux rest (c :: cur)

/-- The maximal whitespace-delimited non-empty tokens of a string. -/
def wordsOf (s : List Char) : List (List Char) := wordsAux s []

/-- JavaScript `s.split(/\s+/)`: the non-whitespace runs of `s`, with an
extra empty string in front when `s` starts with a separator match, an
extra empty string at the end when it ends with one, and `[""]` on the
empty string. -/
def jsSplitWs (s : List Char) : List (List Char) :=
  match s with
  | [] => [[]]
  | c :: rest =>
    (if isWs c then [([] : List Char)] else []) ++ wordsOf (c :: rest) ++
    (if isWs ((c :: rest).getLast (by simp)) then [([] : List Char)] else [])

/-- Accumulator for `splitNl`; `cur` is the reversed current piece. -/
def splitNlAux : List Char → List Char → List (List Char)
  | [], cur => [cur.reverse]
  | c :: rest, cur =>
    if c = '\n' then cur.reverse :: splitNlAux rest [] else splitNlAux rest (c :: cur)

/-- JavaScript `s.split('\n')`: the pieces of `s` between newline
characters (always at least one piece; `""` splits to `[""]`). -/
def splitNl (s : List Char) : List (List Char) := splitNlAux s []

/-- JavaScript `lines.join('\n')`. -/
def joinNl : List (List Char) → List Char
  | [] => []
  | [l] => l
  | l :: ls => l ++ '\n' :: joinNl ls

/-! ## The stats triple (`updateStats`, lines 184–201) -/

/-- The derived stats triple `{chars, words, lines}`. -/
structure Stats where
  chars : Nat
  words : Nat
  lines : Nat
  deriving Repr, DecidableEq

/-- The pure computation inside `updateStats` (and duplicated in
`saveToLocalStorage`):
`chars = text.length`,
`words = text.trim() === '' ? 0 : text.trim().split(/\s+/).length`,
`lines = text === '' ? 0 : text.split('\n').length`. -/
def computeStats (text : List Char) : Stats :=
  { chars := text.length
  , words := if jsTrim text = [] then 0 else (jsSplitWs (jsTrim text)).length
  , lines := if text = [] then 0 else (splitNl text).length }

/-! ## Basic lemmas about the splitters -/

theorem splitNlAux_length (s : List Char) :
    ∀ cur, (splitNlAux s cur).length = s.count '\n' + 1 := by
  induction s with
  | nil => intro cur; simp [splitNlAux]
  | cons c rest ih =>
    intro cur
    by_cases h : c = '\n'
    · subst h
      simp [splitNlAux, List.count_cons, ih]
    · simp [splitNlAux, h, List.count_cons, ih]

theorem splitNl_length (s : List Char) :
    (splitNl s).length = s.count '\n' + 1 :=
  splitNlAux_length s []

theorem splitNl_ne_nil (s : List Char) : splitNl s ≠ [] := by
  intro h
  have := splitNl_length s
  rw [h] at this
  simp at this

/-- If the result of `dropWhile p` is nonempty, its head does not
satisfy `p`. -/
theorem head_dropWhile_false {α : Type} (p : α → Bool) (l : List α) :
    ∀ c rest, l.dropWhile p = c :: rest → p c = false := by
  induction l with
  | nil => intro c rest h; simp [List.dropWhile] at h
  | cons a l ih =>
    intro c rest h
    by_cases ha : p a
    · rw [List.dropWhile_cons_of_pos ha] at h
      exact ih c rest h
    · rw [List.dropWhile_cons_of_neg ha] at h
      cases h
      simpa using ha

/-- `dropWhile` is a suffix, so when nonempty it keeps the last element. -/
theorem getLast?_dropWhile_ne_nil {α : Type} (p : α → Bool) (xs : List α)
    (h : xs.dropWhile p ≠ []) : (xs.dropWhile p).getLast? = xs.getLast? := by
  induction xs with
  | nil => simp [List.dropWhile] at h
  | cons a xs ih =>
    by_cases ha : p a
    · rw [List.dropWhile_cons_of_pos ha] at h ⊢
      rw [ih h]
      cases xs with
      | nil => simp [List.dropWhile] at h
      | cons b xs => rw [List.getLast?_cons_cons]
    · rw [List.dropWhile_cons_of_neg ha]

/-- A nonempty trimmed string does not start with whitespace. -/
theorem jsTrim_head_not_ws (s : List Char) :
    ∀ c, (jsTrim s).head? = some c → isWs c = false := by
  intro c hc
  unfold jsTrim at hc
  rw [List.head?_reverse] at hc
  have hne : (s.dropWhile isWs).reverse.dropWhile isWs ≠ [] := by
    intro h0; rw [h0] at hc; simp at hc
  rw [getLast?_dropWhile_ne_nil _ _ hne, List.getLast?_reverse] at hc
  cases hl : s.dropWhile isWs with
  | nil => rw [hl] at hc; simp at hc
  | cons a rest =>
    rw [hl] at hc
    simp at hc
    subst hc
    exact head_dropWhile_false isWs s a rest hl

/-- A nonempty trimmed string does not end with whitespace. -/
theorem jsTrim_getLast_not_ws (s : List Char) :
    ∀ c, (jsTrim s).getLast? = some c → isWs c = false := by
  intro c hc
  unfold jsTrim at hc
  rw [List.getLast?_reverse] at hc
  cases hm : (s.dropWhile isWs).reverse.dropWhile isWs with
  | nil => rw [hm] at hc; simp at hc
  | cons a rest =>
    rw [hm] at hc
    simp at hc
    subst hc
    exact head_dropWhile_false isWs _ a rest hm

/-- On a nonempty trimmed string the regex split produces exactly the
maximal non-whitespace tokens (no empty boundary pieces). -/
theorem jsSplitWs_jsTrim (s : List Char) (h : jsTrim s ≠ []) :
    jsSplitWs (jsTrim s) = wordsOf (jsTrim s) := by
  cases ht : jsTrim s with
  | nil => exact absurd ht h
  | cons c rest =>
    have hhead : isWs c = false := jsTrim_head_not_ws s c (by rw [ht]; rfl)
    have hlast : isWs ((c :: rest).getLast (by simp)) = false := by
      apply jsTrim_getLast_not_ws s
      rw [ht]
      exact List.getLast?_eq_getLast _ (by simp)
    simp [jsSplitWs, hhead, hlast]

/-- Claim C9: for all strings `s`, the computed character count of `s` equals
the length of `s` (every character counted, including whitespace and
newlines). -/
theorem charCount_correct : ∀ s : List Char, (computeStats s).chars = s.length :=
  fun _ => rfl

/-- Claim C3: the computed word count is 0 when `trim(content)` is empty, and
otherwise equals the number of maximal whitespace-delimited non-empty
tokens of `trim(content)`; in particular `"a b  c"` has word count 3. -/
theorem wordCount_correct :
    (∀ s : List Char, (computeStats s).words = (wordsOf (jsTrim s)).length) ∧
    (∀ s : List Char, jsTrim s = [] → (computeStats s).words = 0) ∧
    (computeStats ('a' :: ' ' :: 'b' :: ' ' :: ' ' :: 'c' :: [])).words = 3 := by
  refine ⟨?_, ?_, by decide⟩
  · intro s
    unfold computeStats
    by_cases h : jsTrim s = []
    · simp [h, wordsOf, wordsAux]
    · simp [h, jsSplitWs_jsTrim s h]
  · intro s h
    simp [computeStats, h]

/-- Witness for C3: concrete whitespace-only input has word count 0, via
the theorem itself. -/
theorem wordCount_correct_witness :
    jsTrim (' ' :: '\t' :: []) = [] ∧ (computeStats (' ' :: '\t' :: [])).words = 0 :=
  ⟨by decide, wordCount_correct.2.1 (' ' :: '\t' :: []) (by decide)⟩

/-- Claim C4: the computed line count is 0 on the empty string and otherwise
the number of newline characters plus one; with the spec's examples. -/
theorem lineCount_correct :
    (∀ s : List Char, (computeStats s).lines = if s = [] then 0 else s.count '\n' + 1) ∧
    (computeStats ([] : List Char)).lines = 0 ∧
    (computeStats ('a' :: [])).lines = 1 ∧
    (computeStats ('a' :: '\n' :: 'b' :: '\n' :: 'c' :: [])).lines = 3 ∧
    (computeStats ('a' :: '\n' :: [])).lines = 2 := by
  refine ⟨?_, by decide, by decide, by decide, by decide⟩
  intro s
  unfold computeStats
  by_cases h : s = []
  · simp [h]
  · simp [h, splitNl_length]

/-! ## Persistence (`saveToLocalStorage`, `loadSavedContent`) -/

/-- The parsed shape of the record stored under the fixed key
`sam-text-content`; in a stored value any field may be absent. -/
structure SavedData where
  content : Option (List Char)
  timestamp : Option (List Char)
  stats : Option Stats
  deriving Repr, DecidableEq

/-- A value found in the store under the fixed key: either text that
parses to a record, or malformed JSON. -/
inductive StoredValue where
  | parseable (d : SavedData)
  | malformed
  deriving Repr, DecidableEq

/-- The record built by `saveToLocalStorage` (lines 360–370): content,
ISO timestamp, and the same stats formulas as `updateStats`. -/
def saveRecord (content ts : List Char) : SavedData :=
  { content := some content
  , timestamp := some ts
  , stats := some (computeStats content) }

/-- The error message thrown by the store on a failed write (quota
exceeded or storage disabled). -/
def storeErrorMsg : List Char := 'Q' :: 'u' :: 'o' :: 't' :: 'a' :: []

/-- The raw `localStorage.setItem` call: replaces the value under the
fixed key, or throws when the browser store rejects the write. -/
def setItemRaw (writeOk : Bool) (_store : Option StoredValue) (v : StoredValue) :
    Except (List Char) (Option StoredValue) :=
  if writeOk then .ok (some v) else .error storeErrorMsg

/-- `saveToLocalStorage` (lines 358–376): serializes the record and
writes it under the fixed key inside a try/catch; a thrown store error
is caught and appended to the console log, and the function returns
normally either way.  Result: the new store and console log. -/
def saveToLocalStorage (writeOk : Bool) (content ts : List Char)
    (store : Option StoredValue) (log : List (List Char)) :
    Except (List Char) (Option StoredValue × List (List Char)) :=
  match setItemRaw writeOk store (.parseable (saveRecord content ts)) with
  | .ok store2 => .ok (store2, log)
  | .error e => .ok (store, log ++ [e])

/-- `loadSavedContent` (lines 378–399): reads the fixed key; when a
value is present and parses, the textarea is set to `data.content || ''`;
when the key is absent, or `JSON.parse` throws (caught), the in-memory
content `initText` is left untouched.  Returns the resulting content and
whether a saved document was restored. -/
def loadSavedContent (store : Option StoredValue) (initText : List Char) :
    List Char × Bool :=
  match store with
  | none => (initText, false)
  | some .malformed => (initText, false)
  | some (.parseable d) => (d.content.getD [], true)

/-! ## Clearing (`clearContent`) -/

/-- Observable outcome of `clearContent`: resulting text and store,
whether the confirmation dialog was shown, and whether a store write
happened. -/
structure ClearResult where
  text : List Char
  store : Option StoredValue
  prompted : Bool
  wrote : Bool
  deriving Repr, DecidableEq

/-- `clearContent` (lines 241–254): when the trimmed text is empty it
only shows a status message and returns; otherwise it asks for
confirmation (`confirmAns` is the user's answer) and, on yes, empties
the textarea and persists through `saveToLocalStorage` (success path,
timestamp `ts`). -/
def clearContent (text : List Char) (store : Option StoredValue)
    (confirmAns : Bool) (ts : List Char) : ClearResult :=
  if jsTrim text = [] then
    { text := text, store := store, prompted := false, wrote := false }
  else if confirmAns then
    { text := [], store := some (.parseable (saveRecord [] ts))
    , prompted := true, wrote := true }
  else
    { text := text, store := store, prompted := true, wrote := false }

/-! ## The debounced autosave (`handleTextInput`, lines 106–123) -/

/-- Events of the debounce model: an input event carrying the new
textarea content, or the firing of the pending 2-second autosave timer. -/
inductive Ev where
  | input (newText : List Char)
  | fireTimer (ts : List Char)

/-- Editor state for the debounce model: current text, whether an
autosave timer is pending, the store, and the number of store writes. -/
structure EditorState where
  text : List Char
  pendingSave : Bool
  store : Option StoredValue
  writes : Nat
  deriving Repr, DecidableEq

/-- One step of the event loop.  An input event updates the text and
resets the autosave timer (`clearTimeout` of the previous one, then
`setTimeout` of a fresh one), so at most one timer is ever pending; a
timer that was cancelled never fires.  A pending timer firing writes the
content current at that moment via `saveToLocalStorage` (success path). -/
def step (st : EditorState) : Ev → EditorState
  | .input c => { st with text := c, pendingSave := true }
  | .fireTimer ts =>
    if st.pendingSave then
      { st with
        store := some (.parseable (saveRecord st.text ts)),
        writes := st.writes + 1,
        pendingSave := false }
    else st

/-- Run a sequence of events from a state. -/
def run (st : EditorState) (evs : List Ev) : EditorState := evs.foldl step st

theorem run_inputs (st : EditorState) (cs : List (List Char)) (c : List Char) :
    run st ((cs ++ [c]).map Ev.input) = { st with text := c, pendingSave := true } := by
  induction cs generalizing st with
  | nil => rfl
  | cons a cs ih =>
    show run (step st (.input a)) ((cs ++ [c]).map Ev.input) = _
    rw [ih]
    simp [step]

/-- Claim C1: persisting `content` writes exactly the record
`{content, timestamp, stats}` under the fixed key, and restoring from
that record yields `content` unchanged, for every `content`. -/
theorem persist_restore_roundtrip (content ts initText : List Char)
    (store : Option StoredValue) (log : List (List Char)) :
    saveToLocalStorage true content ts store log =
      .ok (some (.parseable (saveRecord content ts)), log) ∧
    (loadSavedContent (some (.parseable (saveRecord content ts))) initText).1 = content := by
  constructor
  · rfl
  · simp [loadSavedContent, saveRecord]

/-- Claim C7: restore rebuilds the document from a parseable stored record,
with a missing `content` field defaulting to the empty string; an absent
key or malformed JSON leaves the in-memory content at its default (and
in particular empty when the default is empty). -/
theorem restore_behavior :
    (∀ (d : SavedData) (initText : List Char),
       loadSavedContent (some (.parseable d)) initText = (d.content.getD [], true)) ∧
    (∀ initText : List Char, loadSavedContent none initText = (initText, false)) ∧
    (∀ initText : List Char, loadSavedContent (some .malformed) initText = (initText, false)) ∧
    loadSavedContent none [] = ([], false) ∧
    loadSavedContent (some .malformed) [] = ([], false) :=
  ⟨fun _ _ => rfl, fun _ => rfl, fun _ => rfl, rfl, rfl⟩

/-- Claim C8: `saveToLocalStorage` never propagates an error to its caller:
for every content and store condition it returns normally, and on a
failed write the store is unchanged and the error only logged. -/
theorem persist_never_throws :
    (∀ (writeOk : Bool) (content ts : List Char) (store : Option StoredValue)
       (log : List (List Char)),
       ∃ r, saveToLocalStorage writeOk content ts store log = .ok r) ∧
    (∀ (content ts : List Char) (store : Option StoredValue) (log : List (List Char)),
       saveToLocalStorage false content ts store log = .ok (store, log ++ [storeErrorMsg])) := by
  constructor
  · intro writeOk content ts store log
    cases writeOk
    · exact ⟨(store, log ++ [storeErrorMsg]), rfl⟩
    · exact ⟨(some (.parseable (saveRecord content ts)), log), rfl⟩
  · intro content ts store log
    rfl

/-- Claim C6: clearing when the content is empty is a no-op: no confirmation
prompt, content and store untouched, no write. -/
theorem clear_empty_noop (store : Option StoredValue) (confirmAns : Bool) (ts : List Char) :
    clearContent [] store confirmAns ts =
      { text := [], store := store, prompted := false, wrote := false } := by
  simp [clearContent, jsTrim]

/-- Claim C10: clearing is a no-op (no prompt, no change, no write) whenever
the trimmed content is empty — including whitespace-only content — and
takes effect exactly when the trimmed content is nonempty and the user
confirms, emptying the text and persisting it. -/
theorem clear_blank_noop :
    (∀ (text : List Char) (store : Option StoredValue) (confirmAns : Bool) (ts : List Char),
       jsTrim text = [] →
       clearContent text store confirmAns ts =
         { text := text, store := store, prompted := false, wrote := false }) ∧
    (∀ (text : List Char) (store : Option StoredValue) (ts : List Char),
       jsTrim text ≠ [] →
       clearContent text store true ts =
         { text := [], store := some (.parseable (saveRecord [] ts))
         , prompted := true, wrote := true }) ∧
    (∀ (text : List Char) (store : Option StoredValue) (ts : List Char),
       jsTrim text ≠ [] →
       clearContent text store false ts =
         { text := text, store := store, prompted := true, wrote := false }) := by
  refine ⟨?_, ?_, ?_⟩
  · intro text store confirmAns ts h
    simp [clearContent, h]
  · intro text store ts h
    simp [clearContent, h]
  · intro text store ts h
    simp [clearContent, h]

/-- Witness for C10: concrete whitespace-only content is untouched, and
concrete nonempty content is cleared on confirmation. -/
theorem clear_blank_noop_witness :
    clearContent (' ' :: '\n' :: []) none true ('t' :: []) =
      { text := (' ' :: '\n' :: []), store := none, prompted := false, wrote := false } ∧
    clearContent ('a' :: []) none true ('t' :: []) =
      { text := [], store := some (.parseable (saveRecord [] ('t' :: [])))
      , prompted := true, wrote := true } ∧
    clearContent ('a' :: []) none false ('t' :: []) =
      { text := ('a' :: []), store := none, prompted := true, wrote := false } :=
  ⟨clear_blank_noop.1 (' ' :: '\n' :: []) none true ('t' :: []) (by decide),
   clear_blank_noop.2.1 ('a' :: []) none ('t' :: []) (by decide),
   clear_blank_noop.2.2 ('a' :: []) none ('t' :: []) (by decide)⟩

/-- Claim C5: a burst of input events inside the debounce window performs no
write by itself; when the single surviving timer fires, exactly one
write happens and it stores the content of the last input. -/
theorem debounce_single_write (st0 : EditorState) (cs : List (List Char)) (c ts : List Char) :
    (run st0 ((cs ++ [c]).map Ev.input)).writes = st0.writes ∧
    (run st0 ((cs ++ [c]).map Ev.input ++ [Ev.fireTimer ts])).writes = st0.writes + 1 ∧
    (run st0 ((cs ++ [c]).map Ev.input ++ [Ev.fireTimer ts])).store =
      some (.parseable (saveRecord c ts)) := by
  have h1 : run st0 ((cs ++ [c]).map Ev.input) = { st0 with text := c, pendingSave := true } :=
    run_inputs st0 cs c
  have h2 : run st0 ((cs ++ [c]).map Ev.input ++ [Ev.fireTimer ts]) =
      step (run st0 ((cs ++ [c]).map Ev.input)) (Ev.fireTimer ts) := by
    simp [run, List.foldl_append]
  refine ⟨by rw [h1], ?_, ?_⟩
  · rw [h2, h1]; simp [step]
  · rw [h2, h1]; simp [step]

/-! ## Shift+Tab indentation removal (`removeIndentation`, lines 433–447) -/

/-- The loop body of `removeIndentation` on one line: remove a leading
tab; else remove a leading run of exactly four spaces (`startsWith('    ')`);
else leave the line unchanged. -/
def removeIndentLine (l : List Char) : List Char :=
  if l.take 1 = ['\t'] then l.drop 1
  else if l.take 4 = [' ', ' ', ' ', ' '] then l.drop 4
  else l

/-- The `for (let i = startLine; i <= endLine; i++)` loop over the line
array, transforming the lines whose index lies in the inclusive range. -/
def mapLinesFrom (f : List Char → List Char) (sL eL : Nat) :
    Nat → List (List Char) → List (List Char)
  | _, [] => []
  | i, l :: ls =>
    (if sL ≤ i ∧ i ≤ eL then f l else l) :: mapLinesFrom f sL eL (i + 1) ls

/-- `removeIndentation(start, end)` (lines 433–447): split the value
into lines, locate the lines containing the selection start and end via
`value.substring(0, pos).split('\n').length - 1`, run the loop, and join
back with newlines. -/
def removeIndent (value : List Char) (s e : Nat) : List Char :=
  joinNl (mapLinesFrom removeIndentLine
    ((splitNl (value.take s)).length - 1)
    ((splitNl (value.take e)).length - 1)
    0 (splitNl value))

/-- The per-line transformation C2 prescribes for a selected line:
remove one leading tab, else remove up to four leading spaces (as many
as are present, at most four), else leave the line unchanged. -/
def claimRemoveIndentLine (l : List Char) : List Char :=
  if l.take 1 = ['\t'] then l.drop 1
  else l.drop (min 4 (l.takeWhile (fun c => c = ' ')).length)

theorem splitNlAux_no_nl (cur : List Char) (hcur : '\n' ∉ cur) :
    ∀ s : List Char, ∀ l ∈ splitNlAux s cur, '\n' ∉ l := by
  intro s
  induction s generalizing cur with
  | nil =>
    intro l hl
    simp [splitNlAux] at hl
    subst hl
    simpa using hcur
  | cons c rest ih =>
    intro l hl
    by_cases hc : c = '\n'
    · subst hc
      simp [splitNlAux] at hl
      rcases hl with hl | hl
      · subst hl; simpa using hcur
      · exact ih [] (by simp) l hl
    · rw [splitNlAux, if_neg hc] at hl
      refine ih (c :: cur) ?_ l hl
      simp [hcur, Ne.symm hc]

theorem mem_splitNl_no_nl (s : List Char) : ∀ l ∈ splitNl s, '\n' ∉ l :=
  splitNlAux_no_nl [] (by simp) s

theorem splitNlAux_append_no_nl (l : List Char) (h : '\n' ∉ l) :
    ∀ (s cur : List Char), splitNlAux (l ++ s) cur = splitNlAux s (l.reverse ++ cur) := by
  induction l with
  | nil => intro s cur; rfl
  | cons c l ih =>
    intro s cur
    have hc : c ≠ '\n' := fun hc => h (by simp [hc])
    have hl : '\n' ∉ l := fun hl => h (by simp [hl])
    show splitNlAux (c :: (l ++ s)) cur = _
    rw [splitNlAux, if_neg hc, ih hl s (c :: cur)]
    simp

/-- Joining newline-free lines and re-splitting recovers the lines. -/
theorem splitNl_joinNl :
    ∀ ls : List (List Char), ls ≠ [] → (∀ l ∈ ls, '\n' ∉ l) →
      splitNl (joinNl ls) = ls := by
  intro ls
  induction ls with
  | nil => intro h; exact absurd rfl h
  | cons l ls ih =>
    intro _ hfree
    have hl : '\n' ∉ l := hfree l (by simp)
    cases ls with
    | nil =>
      show splitNl (joinNl [l]) = [l]
      show splitNlAux l [] = [l]
      have := splitNlAux_append_no_nl l hl [] []
      simp at this
      rw [this, splitNlAux]
      simp
    | cons l2 ls2 =>
      show splitNl (l ++ '\n' :: joinNl (l2 :: ls2)) = l :: l2 :: ls2
      show splitNlAux (l ++ '\n' :: joinNl (l2 :: ls2)) [] = l :: l2 :: ls2
      rw [splitNlAux_append_no_nl l hl _ []]
      rw [splitNlAux, if_pos rfl]
      have hrest : splitNlAux (joinNl (l2 :: ls2)) [] = l2 :: ls2 :=
        ih (by simp) (fun x hx => hfree x (by simp [hx]))
      simp [hrest]

theorem mapLinesFrom_ne_nil (f : List Char → List Char) (sL eL k : Nat)
    (ls : List (List Char)) (h : ls ≠ []) : mapLinesFrom f sL eL k ls ≠ [] := by
  cases ls with
  | nil => exact absurd rfl h
  | cons l ls => simp [mapLinesFrom]

theorem mem_mapLinesFrom (f : List Char → List Char) (sL eL : Nat)
    (P : List Char → Prop) (hf : ∀ l, P l → P (f l)) :
    ∀ (ls : List (List Char)) (k : Nat), (∀ l ∈ ls, P l) →
      ∀ x ∈ mapLinesFrom f sL eL k ls, P x := by
  intro ls
  induction ls with
  | nil => intro k _ x hx; simp [mapLinesFrom] at hx
  | cons l ls ih =>
    intro k hP x hx
    simp [mapLinesFrom] at hx
    rcases hx with hx | hx
    · subst hx
      by_cases hk : sL ≤ k ∧ k ≤ eL
      · rw [if_pos hk]; exact hf l (hP l (by simp))
      · rw [if_neg hk]; exact hP l (by simp)
    · exact ih (k + 1) (fun y hy => hP y (by simp [hy])) x hx

theorem removeIndentLine_no_nl (l : List Char) (h : '\n' ∉ l) :
    '\n' ∉ removeIndentLine l := by
  unfold removeIndentLine
  by_cases h1 : l.take 1 = ['\t']
  · rw [if_pos h1]
    exact fun hmem => h (List.drop_subset 1 l hmem)
  · rw [if_neg h1]
    by_cases h4 : l.take 4 = [' ', ' ', ' ', ' ']
    · rw [if_pos h4]
      exact fun hmem => h (List.drop_subset 4 l hmem)
    · rw [if_neg h4]; exact h

theorem get?_mapLinesFrom (f : List Char → List Char) (sL eL : Nat) :
    ∀ (ls : List (List Char)) (k i : Nat),
      (mapLinesFrom f sL eL k ls).get? i =
        (ls.get? i).map (fun l => if sL ≤ k + i ∧ k + i ≤ eL then f l else l) := by
  intro ls
  induction ls with
  | nil => intro k i; simp [mapLinesFrom]
  | cons l ls ih =>
    intro k i
    cases i with
    | zero => simp [mapLinesFrom]
    | succ n =>
      show (mapLinesFrom f sL eL (k + 1) ls).get? n = _
      rw [ih (k + 1) n]
      have : k + 1 + n = k + (n + 1) := by omega
      simp [this]

/-- Claim C2 counterexample: select the single line `"  a"` (two leading
spaces).  The claim prescribes removing its (up to four) leading spaces,
yielding `"a"`, but the code leaves any line with fewer than four
leading spaces unchanged. -/
theorem removeIndent_spaces_cex :
    removeIndent (' ' :: ' ' :: 'a' :: []) 0 0 = (' ' :: ' ' :: 'a' :: []) ∧
    claimRemoveIndentLine (' ' :: ' ' :: 'a' :: []) = ('a' :: []) ∧
    (' ' :: ' ' :: 'a' :: [] : List Char) ≠ ('a' :: []) :=
  ⟨by decide, by decide, by decide⟩

/-- Claim C2 (amended): indentation-remove transforms exactly the lines whose
index lies between the line containing the selection start and the line
containing the selection end (a line's index being the number of
newlines before it); a touched line starting with a tab loses exactly
that tab, a touched line starting with at least four spaces loses
exactly four spaces, and every other line — including lines with one to
three leading spaces — is unchanged. -/
theorem removeIndent_lines (value : List Char) (s e i : Nat) :
    (splitNl (removeIndent value s e)).get? i =
      ((splitNl value).get? i).map (fun l =>
        if (value.take s).count '\n' ≤ i ∧ i ≤ (value.take e).count '\n' then
          (if l.take 1 = ['\t'] then l.drop 1
           else if l.take 4 = [' ', ' ', ' ', ' '] then l.drop 4
           else l)
        else l) := by
  have hsplit : splitNl (removeIndent value s e) =
      mapLinesFrom removeIndentLine ((splitNl (value.take s)).length - 1)
        ((splitNl (value.take e)).length - 1) 0 (splitNl value) := by
    apply splitNl_joinNl
    · exact mapLinesFrom_ne_nil _ _ _ _ _ (splitNl_ne_nil value)
    · exact mem_mapLinesFrom removeIndentLine _ _ (fun l => '\n' ∉ l)
        removeIndentLine_no_nl (splitNl value) 0 (mem_splitNl_no_nl value)
  rw [hsplit, get?_mapLinesFrom]
  have hs : (splitNl (value.take s)).length - 1 = (value.take s).count '\n' := by
    rw [splitNl_length]; omega
  have he : (splitNl (value.take e)).length - 1 = (value.take e).count '\n' := by
    rw [splitNl_length]; omega
  simp [hs, he, removeIndentLine]

end SamText
